import Mathlib

/-!
Verification development for the `@data-eden/cache` package.

The repository holds two cache implementations: the package source
`src/packages/cache/src/cache.ts` (the minimal `CacheImpl` behind
`buildCache`), and a richer `CacheImpl` embedded in
`src/packages/codegen/__tests__/go.test.ts` (lines 93-920) that adds
`clear`, a bounded `LruCacheImpl`, entry states, revision logs, and
`LiveCacheTransactionImpl` with `beginLiveTransaction`/`get`/`set`/
`commit`/`commitTransaction`.  Both are embedded below: `CacheState` with
`getImpl`/`loadImpl`/`entriesList`/`saveImpl` for the former, `CacheT`
with `clearImpl` (the loop acts on the shared two-map core),
`beginLiveTransactionImpl`, `txGetImpl` and `commitTransactionImpl` for
the latter.

The cache stores entities behind weak references in a primary map
(`#weakCache : Map<Key, WeakRef<V>>`) and keeps a second, strongly held map
(`#lru : Map`).  We embed the state shallowly:

* a JavaScript entity is a `JVal` — JSON-shaped data plus `func` for
  values (functions) that `JSON.stringify` cannot serialize;
* the weak map is an association list `List (K × Option JVal)`; the
  `Option` is the observable result of `WeakRef.deref()` at the moment an
  operation runs: `some v` when the referent is alive, `none` when it has
  been reclaimed;
* the strong map is an association list `List (K × JVal)`.

JavaScript `Map` insertion-order semantics (`set` on an existing key
updates in place and keeps the key's original position; otherwise the pair
is appended) is embedded by `mapSet`, and `Map.get` by `mapLookup`.
-/

namespace DataEden

/-- JSON-shaped JavaScript value.  `func` stands for any value that
`JSON.stringify` turns into `undefined` (a function); inside an array such
a value serializes as `null`, inside an object the field is dropped. -/
inductive JVal where
  | null
  | bool (b : Bool)
  | num (n : Int)
  | str (s : String)
  | arr (xs : List JVal)
  | obj (fields : List (String × JVal))
  | func

section Maps

variable {K V : Type} [DecidableEq K]

/-- JavaScript `Map.get`: first binding of the key, if any. -/
def mapLookup (k : K) : List (K × V) → Option V
  | [] => none
  | (k', v) :: rest => if k = k' then some v else mapLookup k rest

/-- JavaScript `Map.set`: update in place when the key is present (JavaScript `Map`
keeps the original insertion position on overwrite), append otherwise. -/
def mapSet (k : K) (v : V) : List (K × V) → List (K × V)
  | [] => [(k, v)]
  | (k', v') :: rest =>
    if k = k' then (k', v) :: rest else (k', v') :: mapSet k v rest

/-- JavaScript `Map.delete`: remove the key's binding, if any. -/
def mapDelete (k : K) : List (K × V) → List (K × V)
  | [] => []
  | (k', v) :: rest => if k = k' then rest else (k', v) :: mapDelete k rest

end Maps

/-- The `retained` sub-record of `CacheEntryState` (cache.ts lines 27-31). -/
structure RetainedRecord where
  lru : Bool
  ttl : Int
deriving DecidableEq

/-- The `CacheEntryState` interface (cache.ts lines 27-40).  The generic
`extensions: UserExtensionData` payload is embedded as `Unit`; no code in
`cache.ts` ever constructs a `CacheEntryState`, while the richer
implementation's transaction builds `{retained: {lru: true, ttl},
lastAccessed}` literals (go.test.ts lines 437-440, 512-515). -/
structure CacheEntryState where
  retained : RetainedRecord
  lastAccessed : Int
  extensions : Unit
deriving DecidableEq

/-- A `CacheEntry` tuple `[key, value, state?]` (cache.ts lines 17-25). -/
abbrev CacheEntry (K : Type) : Type := K × JVal × Option CacheEntryState

/-- The private state of `CacheImpl` (cache.ts lines 89-91):
`#weakCache : Map<Key, WeakRef<V>>` and `#lru : Map`.  A weak-cache cell
records what `WeakRef.deref()` observes: `some v` while the referent is
alive, `none` after it has been reclaimed. -/
structure CacheState (K : Type) where
  weakCache : List (K × Option JVal)
  lru : List (K × JVal)

/-- The state of a cache fresh from `buildCache()` (cache.ts lines 181-188). -/
def emptyCache (K : Type) : CacheState K := ⟨[], []⟩

section CacheOps

variable {K : Type} [DecidableEq K]

/-- Source `CacheImpl.get` (cache.ts lines 93-96):
`let ref = this.#weakCache.get(cacheKey); return ref?.deref();`. -/
def getImpl (st : CacheState K) (k : K) : Option JVal :=
  (mapLookup k st.weakCache).bind id

/-- Source `CacheImpl.load` (cache.ts lines 104-116).  For each entry in order the
code runs `let clone = value` (the `structuredClone(value)` call on line 110
is commented out), then `this.#weakCache.set(key, new WeakRef(clone))` and
`this.#lru.set(key, value)`.  The installed referent starts alive (`some`):
it is strongly held by the `#lru` map. -/
def loadImpl : List (CacheEntry K) → CacheState K → CacheState K
  | [], st => st
  | (k, v, _) :: rest, st =>
    loadImpl rest ⟨mapSet k (some v) st.weakCache, mapSet k v st.lru⟩

/-- Source `CacheImpl[Symbol.asyncIterator]` (cache.ts lines 123-130), collected
into a list: for each key of `#weakCache` in insertion order the code
yields `[key, this.#weakCache.get(key)?.deref(), undefined]` — the entity
slot is the deref result (possibly `undefined`) and the state slot is the
hard-coded `undefined` (`// TODO read CacheEntryState correctly`).
`entries()` (lines 137-139) returns this same iterator. -/
def entriesList (st : CacheState K) : List (K × Option JVal × Option CacheEntryState) :=
  st.weakCache.map fun kc =>
    (kc.1, (mapLookup kc.1 st.weakCache).bind id, (none : Option CacheEntryState))

end CacheOps

mutual

/-- Semantics of `JSON.parse(JSON.stringify x)` on a defined value:
`none` when `JSON.stringify` yields no output (a bare function), otherwise
the value that parses back.  A function element of an array serializes as
`null`; a function-valued field of an object is dropped. -/
def jsonSer : JVal → Option JVal
  | .func => none
  | .null => some .null
  | .bool b => some (.bool b)
  | .num n => some (.num n)
  | .str s => some (.str s)
  | .arr xs => some (.arr (jsonSerArr xs))
  | .obj fs => some (.obj (jsonSerObj fs))

/-- Array elements under `JSON.stringify`: unserializable entries become `null`. -/
def jsonSerArr : List JVal → List JVal
  | [] => []
  | x :: xs => (jsonSer x).getD .null :: jsonSerArr xs

/-- Object fields under `JSON.stringify`: unserializable fields are dropped. -/
def jsonSerObj : List (String × JVal) → List (String × JVal)
  | [] => []
  | (k, v) :: fs =>
    match jsonSer v with
    | none => jsonSerObj fs
    | some c => (k, c) :: jsonSerObj fs

end

/-- The exact message of the error thrown by the `structuredClone` shim
(cache.ts line 6). -/
def notCloneableMsg : String :=
  "The cache value is not structured clonable use `save` with serializer"

/-- The `structuredClone` shim (cache.ts lines 2-8):
`JSON.parse(JSON.stringify(x))` in a `try`, rethrown as the
`notCloneableMsg` error.  Its argument is the entity slot of an iterator
tuple, hence possibly `undefined` (an evaporated weak entry);
`JSON.stringify(undefined)` is `undefined` and `JSON.parse(undefined)`
throws, so a `none` cell also lands in the `catch` branch. -/
def structuredCloneShim (x : Option JVal) : Except String JVal :=
  match x with
  | none => .error notCloneableMsg
  | some v =>
    match jsonSer v with
    | none => .error notCloneableMsg
    | some c => .ok c

/-- The loop body of `CacheImpl.save` (cache.ts lines 170-177): walk the
iterator tuples in order, clone each entity slot with the shim, push
`[key, clone, state]`; the first clone failure aborts the whole call. -/
def saveList {K : Type} :
    List (K × Option JVal × Option CacheEntryState) →
    Except String (List (K × JVal × Option CacheEntryState))
  | [] => .ok []
  | (k, ov, s) :: rest =>
    match structuredCloneShim ov with
    | .error e => .error e
    | .ok c =>
      match saveList rest with
      | .error e => .error e
      | .ok l => .ok ((k, c, s) :: l)

/-- Source `CacheImpl.save` (cache.ts lines 170-177). -/
def saveImpl {K : Type} [DecidableEq K] (st : CacheState K) :
    Except String (List (K × JVal × Option CacheEntryState)) :=
  saveList (entriesList st)

/-- The set of reachable `(key, value)` pairs of a cache: the keys whose
weak reference still resolves, paired with the referent. -/
def reachablePairs {K : Type} (st : CacheState K) : List (K × JVal) :=
  st.weakCache.filterMap fun kc => kc.2.map fun v => (kc.1, v)

/-- The message of the error thrown by the richer `CacheImpl`'s iterator
(go.test.ts line 266) when a weak entry fails to deref mid-iteration. -/
def refUndefinedMsg : String := "ref is undefined"

section ClearOps

variable {K : Type} [DecidableEq K]

/-- The loop of `CacheImpl.clear` (go.test.ts lines 136-142):
`for await (const [key] of this.entries())`, deleting each visited key
from `#weakCache` and from the LRU's inner map.  The iterator
(go.test.ts lines 255-273) derefs each key against the current weak map
and throws `refUndefinedMsg` when the referent has evaporated; deleting
the just-visited key while iterating is safe on a JavaScript `Map`, so
the visited keys are exactly the weak map's entries in order. -/
def clearLoop : List (K × Option JVal) → CacheState K → Except String (CacheState K)
  | [], st => .ok st
  | (k, _) :: rest, st =>
    match (mapLookup k st.weakCache).bind id with
    | none => .error refUndefinedMsg
    | some _ => clearLoop rest ⟨mapDelete k st.weakCache, mapDelete k st.lru⟩

/-- `CacheImpl.clear` (go.test.ts lines 136-142), the only `clear` in the
repository, acting on the two-map state of `cache.ts`.  The source method
also runs `this.#entryRevisions.delete(key)` per key; the revision log is
a field only the richer `CacheImpl` has, with no counterpart in
`cache.ts`'s state, so that deletion has nothing to act on here. -/
def clearImpl (st : CacheState K) : Except String (CacheState K) :=
  clearLoop st.weakCache st

end ClearOps

/-- A per-key revision record, `CachedEntityRevision` (go.test.ts lines
200-210, 571-575): the entity snapshot, the revision number, and an
optional revision context. -/
structure CachedEntityRevision where
  entity : JVal
  revision : Int
  revisionContext : Option String

/-- The state of the richer `CacheImpl` (go.test.ts lines 93-131):
`#weakCache`, the map inside `#lruCache` (an `LruCacheImpl` of capacity
`#lruPolicy`), `#entryRevisions`, `#cacheEntryState`, and the `lru` and
`ttl` policies as resolved by the constructor from
`CacheOptions.expiration` (defaults 10000 and 60000). -/
structure CacheT (K : Type) where
  weakCache : List (K × Option JVal)
  lruCache : List (K × JVal)
  entryRevisions : List (K × List CachedEntityRevision)
  cacheEntryState : List (K × Option CacheEntryState)
  lruPolicy : Nat
  ttlPolicy : Int

/-- The truthiness of a JavaScript value, for `if (cacheValue)` checks:
`null`, `false`, `0` and the empty string are falsy; objects, arrays and
functions are truthy. -/
def jvalTruthy : JVal → Bool
  | .null => false
  | .bool b => b
  | .num n => n != 0
  | .str s => s != ""
  | .arr _ => true
  | .obj _ => true
  | .func => true

section CacheTOps

variable {K : Type} [DecidableEq K]

/-- The richer `CacheImpl.get` (go.test.ts lines 150-153), the same
lookup-then-deref as `cache.ts`. -/
def getTImpl (st : CacheT K) (k : K) : Option JVal :=
  (mapLookup k st.weakCache).bind id

/-- `LruCacheImpl.set` (go.test.ts lines 798-809): refresh a present key
by delete-then-append; otherwise at capacity evict the key at the head of
insertion order (on an empty map at capacity 0 the `keys().next()` key is
`undefined` and that delete is a no-op); then append. -/
def lruSet (maxCap : Nat) (k : K) (v : JVal) (m : List (K × JVal)) : List (K × JVal) :=
  if (mapLookup k m).isSome then mapDelete k m ++ [(k, v)]
  else if m.length = maxCap then m.tail ++ [(k, v)]
  else m ++ [(k, v)]

/-- The state of `LiveCacheTransactionImpl` (go.test.ts lines 328-401):
one combined `#transactionalCache` map holding the transactional view
(there is no separate snapshot/overlay pair — `set` writes into this same
map), `#localUpdatedEntries` for local writes, `#cacheEntryState`,
`#localRevisions`, the `#entryRevisions` built at begin, and the resolved
`lru`/`ttl` policies.  The `#originalCacheReference` back-pointer and the
`#commitingTransaction` staging object only matter to `commit`, which is
not part of the read path verified here. -/
structure LiveTxT (K : Type) where
  transactionalCache : List (K × JVal)
  localUpdatedEntries : List (K × JVal)
  cacheEntryState : List (K × CacheEntryState)
  localRevisions : List (K × List CachedEntityRevision)
  entryRevisions : List (K × List CachedEntityRevision)
  lruPolicy : Nat
  ttlPolicy : Int

/-- The loop of `LiveCacheTransactionImpl.beginLiveTransaction`
(go.test.ts lines 403-430): for each `[key, value]` yielded by the
original cache's `entries()` — which derefs the key against the current
weak map and throws `refUndefinedMsg` on an evaporated entry (lines
259-267) — install `{ ...value }` into the transactional map (a shallow
object copy: a fresh object with the same fields, hence the same value of
this pure embedding), and for each revision of the key overwrite the
transaction's revision entry with the one-element list holding it
(`entryRevisions.set(key, [entryRevision])` inside the inner loop). -/
def beginLoop (st : CacheT K) :
    List (K × Option JVal) → List (K × JVal) →
    List (K × List CachedEntityRevision) → Except String (LiveTxT K)
  | [], txc, txr =>
    .ok { transactionalCache := txc, localUpdatedEntries := [],
          cacheEntryState := [], localRevisions := [], entryRevisions := txr,
          lruPolicy := st.lruPolicy, ttlPolicy := st.ttlPolicy }
  | (k, _) :: rest, txc, txr =>
    match (mapLookup k st.weakCache).bind id with
    | none => .error refUndefinedMsg
    | some v =>
      beginLoop st rest (mapSet k v txc)
        (((mapLookup k st.entryRevisions).getD []).foldl
          (fun acc r => mapSet k [r] acc) txr)

/-- `CacheImpl.beginTransaction` delegating to
`LiveCacheTransactionImpl.beginLiveTransaction` (go.test.ts lines
321-325, 403-430). -/
def beginLiveTransactionImpl (st : CacheT K) : Except String (LiveTxT K) :=
  beginLoop st st.weakCache [] []

/-- `LiveCacheTransactionImpl.get` (go.test.ts lines 432-444): read the
single `#transactionalCache` map; on a truthy hit, record a fresh
`CacheEntryState` (`retained: { lru: true, ttl }`, `lastAccessed` = the
current clock, extensions embedded as `()`); return the looked-up value
either way. -/
def txGetImpl (now : Int) (t : LiveTxT K) (k : K) : Option JVal × LiveTxT K :=
  match mapLookup k t.transactionalCache with
  | none => (none, t)
  | some v =>
    (some v,
      if jvalTruthy v then
        { t with cacheEntryState :=
            mapSet k ⟨⟨true, t.ttlPolicy⟩, now, ()⟩ t.cacheEntryState }
      else t)

/-- The comparator of `commitTransaction`'s entry sort (go.test.ts lines
218-224): the first entry sorts after the second exactly when both states
carry a truthy (non-zero) `lastAccessed` and the first is strictly
older; in every other case the comparator answers −1. -/
def commitAfter (e e1 : CacheEntry K) : Bool :=
  match e.2.2, e1.2.2 with
  | some s, some s1 =>
      s.lastAccessed != 0 && s1.lastAccessed != 0 &&
        decide (s.lastAccessed < s1.lastAccessed)
  | _, _ => false

/-- One stable insertion step for the entry sort. -/
def insertSorted (le : CacheEntry K → CacheEntry K → Bool) (x : CacheEntry K) :
    List (CacheEntry K) → List (CacheEntry K)
  | [] => [x]
  | y :: ys => if le x y then x :: y :: ys else y :: insertSorted le x ys

/-- The `entries.sort(...)` call (go.test.ts line 218): ECMAScript
requires `Array.prototype.sort` to be stable, embedded here as a stable
insertion sort honouring the comparator pairwise (for this inconsistent
comparator the engine retains some freedom over the result; no property
proved below depends on the order). -/
def sortEntries (entries : List (CacheEntry K)) : List (CacheEntry K) :=
  entries.foldr (insertSorted fun e e1 => !commitAfter e e1) []

/-- Appending committed revisions (go.test.ts lines 239-247): concatenate
onto the key's existing list when present, else install the list. -/
def revisionAppend (m : List (K × List CachedEntityRevision)) (k : K)
    (rl : List CachedEntityRevision) : List (K × List CachedEntityRevision) :=
  match mapLookup k m with
  | some cur => mapSet k (cur ++ rl) m
  | none => mapSet k rl m

/-- `CacheImpl.commitTransaction` (go.test.ts lines 214-248): sort the
entries by the `lastAccessed` comparator, then for each
`[key, value, state]` install a weak reference to `value` itself (no
clone) into `#weakCache`, record `state` in `#cacheEntryState`, and
install into the LRU only when `state?.retained.lru` is truthy; finally
fold the revision map in with `revisionAppend`. -/
def commitTransactionImpl (entries : List (CacheEntry K))
    (entryRevisions : List (K × List CachedEntityRevision))
    (st : CacheT K) : CacheT K :=
  let st1 := (sortEntries entries).foldl
    (fun acc e =>
      { acc with
        weakCache := mapSet e.1 (some e.2.1) acc.weakCache
        cacheEntryState := mapSet e.1 e.2.2 acc.cacheEntryState
        lruCache :=
          if (e.2.2.map fun s => s.retained.lru).getD false then
            lruSet acc.lruPolicy e.1 e.2.1 acc.lruCache
          else acc.lruCache }) st
  entryRevisions.foldl
    (fun acc kr =>
      { acc with entryRevisions := revisionAppend acc.entryRevisions kr.1 kr.2 })
    st1

/-- A cache of the richer implementation together with one live
transaction opened against it.  `LiveCacheTransactionImpl` keeps its
`#transactionalCache` private, and `CacheImpl.commitTransaction` mutates
only the cache's own fields (`#weakCache`, `#cacheEntryState`,
`#lruCache`, `#entryRevisions`, go.test.ts lines 226-247), so a commit by
another transaction changes the cache component and leaves this live
transaction's state untouched. -/
structure SessionT (K : Type) where
  cache : CacheT K
  tx : LiveTxT K

/-- Another transaction's commit landing while ours is live. -/
def sessionCommitOther (es : List (CacheEntry K))
    (rv : List (K × List CachedEntityRevision)) (s : SessionT K) : SessionT K :=
  ⟨commitTransactionImpl es rv s.cache, s.tx⟩

/-- The value yielded by a read inside the session's live transaction. -/
def sessionRead (now : Int) (s : SessionT K) (k : K) : Option JVal :=
  (txGetImpl now s.tx k).1

end CacheTOps

/-- Reference-semantics model of the store for the aliasing question: a
JavaScript object is an address into a mutable heap, and `cache.ts` stores
the addresses.  `#weakCache` holds `WeakRef`s to the very objects that
`#lru` holds strongly, so a referent is alive whenever the cache is. -/
structure RefCache (K : Type) where
  weakCache : List (K × Nat)
  lru : List (K × Nat)

/-- A heap assigning to every object address its current contents. -/
def Heap : Type := Nat → JVal

section RefOps

variable {K : Type} [DecidableEq K]

/-- Source `CacheImpl.load` under reference semantics (cache.ts lines 104-116):
`let clone = value` — the `structuredClone(value)` call on line 110 is
commented out, so the caller's address itself is installed in both maps. -/
def refLoad : List (K × Nat) → RefCache K → RefCache K
  | [], st => st
  | (k, a) :: rest, st =>
    refLoad rest ⟨mapSet k a st.weakCache, mapSet k a st.lru⟩

/-- Source `CacheImpl.get` under reference semantics: resolve the stored address
against the current heap.  The referent is strongly held by `#lru`
(`refLoad` installs the same address there), so `deref` succeeds. -/
def refGet (h : Heap) (st : RefCache K) (k : K) : Option JVal :=
  (mapLookup k st.weakCache).map h

end RefOps

/-- Mutating an object in place: the heap after `h[a] := v`. -/
def heapWrite (h : Heap) (a : Nat) (v : JVal) : Heap :=
  fun a' => if a' = a then v else h a'

/-- A bulk `load` argument of `n` entries with the distinct keys
`0, …, n-1` (all values `null`, no entry state). -/
def rangeEntries (n : Nat) : List (CacheEntry Nat) :=
  (List.range n).map fun i => (i, JVal.null, none)

section MapLemmas

variable {K V : Type} [DecidableEq K]

theorem mapLookup_mapSet (k k' : K) (v : V) (l : List (K × V)) :
    mapLookup k (mapSet k' v l) = if k = k' then some v else mapLookup k l := by
  induction l with
  | nil => simp [mapSet, mapLookup]
  | cons hd tl ih =>
    obtain ⟨k₀, v₀⟩ := hd
    by_cases h1 : k' = k₀
    · subst h1
      by_cases h2 : k = k'
      · subst h2; simp [mapSet, mapLookup]
      · simp [mapSet, mapLookup, h2]
    · by_cases h2 : k = k₀
      · subst h2
        have hkk : ¬ k = k' := fun hh => h1 hh.symm
        simp [mapSet, mapLookup, h1, hkk]
      · simp [mapSet, mapLookup, h1, h2, ih]

theorem mapLookup_eq_none_of_not_mem {k : K} {l : List (K × V)}
    (h : k ∉ l.map Prod.fst) : mapLookup k l = none := by
  induction l with
  | nil => rfl
  | cons hd tl ih =>
    simp only [List.map_cons, List.mem_cons] at h
    push_neg at h
    simp [mapLookup, h.1, ih h.2]

theorem mapSet_eq_append {k : K} {v : V} {l : List (K × V)}
    (h : k ∉ l.map Prod.fst) : mapSet k v l = l ++ [(k, v)] := by
  induction l with
  | nil => rfl
  | cons hd tl ih =>
    simp only [List.map_cons, List.mem_cons] at h
    push_neg at h
    simp [mapSet, h.1, ih h.2]

theorem mapLookup_of_mem_nodup {k : K} {v : V} {l : List (K × V)}
    (hn : (l.map Prod.fst).Nodup) (hm : (k, v) ∈ l) : mapLookup k l = some v := by
  induction l with
  | nil => cases hm
  | cons hd tl ih =>
    obtain ⟨k₀, v₀⟩ := hd
    simp only [List.map_cons, List.nodup_cons] at hn
    rcases List.mem_cons.mp hm with h | h
    · cases h; simp [mapLookup]
    · have hk : k ≠ k₀ := by
        rintro rfl
        exact hn.1 (List.mem_map.mpr ⟨(k, v), h, rfl⟩)
      simp [mapLookup, hk, ih hn.2 h]

end MapLemmas

section CacheLemmas

variable {K : Type} [DecidableEq K]

/-- When the weak map has no duplicate keys, the iterator's re-lookup of
each key returns that key's own cell: iteration yields exactly one tuple
per key of the map, carrying the cell's deref result and state
`undefined`. -/
theorem entriesList_eq_map {st : CacheState K}
    (hn : (st.weakCache.map Prod.fst).Nodup) :
    entriesList st = st.weakCache.map fun kc =>
      (kc.1, kc.2, (none : Option CacheEntryState)) := by
  unfold entriesList
  apply List.map_congr_left
  intro kc hkc
  obtain ⟨k, c⟩ := kc
  simp [mapLookup_of_mem_nodup hn hkc]

/-- Loading entries whose keys are fresh and mutually distinct appends
one binding per entry, in order, to both maps. -/
theorem loadImpl_fresh {es : List (CacheEntry K)} :
    ∀ (st : CacheState K),
      (es.map fun e => e.1).Nodup →
      (∀ e ∈ es, e.1 ∉ st.weakCache.map Prod.fst ∧ e.1 ∉ st.lru.map Prod.fst) →
      (loadImpl es st).weakCache
          = st.weakCache ++ es.map (fun e => (e.1, some e.2.1)) ∧
        (loadImpl es st).lru = st.lru ++ es.map (fun e => (e.1, e.2.1)) := by
  induction es with
  | nil => intro st _ _; simp [loadImpl]
  | cons e rest ih =>
    intro st hn hd
    obtain ⟨k, v, s⟩ := e
    simp only [List.map_cons, List.nodup_cons] at hn
    have hdk := hd (k, v, s) (List.mem_cons_self _ _)
    have hwc : mapSet k (some v) st.weakCache = st.weakCache ++ [(k, some v)] :=
      mapSet_eq_append hdk.1
    have hlru : mapSet k v st.lru = st.lru ++ [(k, v)] :=
      mapSet_eq_append hdk.2
    have hd' : ∀ e ∈ rest,
        e.1 ∉ (st.weakCache ++ [(k, some v)]).map Prod.fst ∧
        e.1 ∉ (st.lru ++ [(k, v)]).map Prod.fst := by
      intro e he
      have hke : e.1 ≠ k := by
        rintro hk
        exact hn.1 (List.mem_map.mpr ⟨e, he, hk⟩)
      have hde := hd e (List.mem_cons_of_mem _ he)
      constructor
      · simp only [List.map_append, List.mem_append]
        rintro (h | h)
        · exact hde.1 h
        · simp at h; exact hke h
      · simp only [List.map_append, List.mem_append]
        rintro (h | h)
        · exact hde.2 h
        · simp at h; exact hke h
    have := ih ⟨st.weakCache ++ [(k, some v)], st.lru ++ [(k, v)]⟩ hn.2 hd'
    constructor
    · calc (loadImpl ((k, v, s) :: rest) st).weakCache
          = (loadImpl rest ⟨mapSet k (some v) st.weakCache, mapSet k v st.lru⟩).weakCache := rfl
        _ = (loadImpl rest ⟨st.weakCache ++ [(k, some v)], st.lru ++ [(k, v)]⟩).weakCache := by
              rw [hwc, hlru]
        _ = st.weakCache ++ [(k, some v)] ++ rest.map (fun e => (e.1, some e.2.1)) := this.1
        _ = st.weakCache ++ ((k, v, s) :: rest).map (fun e => (e.1, some e.2.1)) := by
              simp
    · calc (loadImpl ((k, v, s) :: rest) st).lru
          = (loadImpl rest ⟨mapSet k (some v) st.weakCache, mapSet k v st.lru⟩).lru := rfl
        _ = (loadImpl rest ⟨st.weakCache ++ [(k, some v)], st.lru ++ [(k, v)]⟩).lru := by
              rw [hwc, hlru]
        _ = st.lru ++ [(k, v)] ++ rest.map (fun e => (e.1, e.2.1)) := this.2
        _ = st.lru ++ ((k, v, s) :: rest).map (fun e => (e.1, e.2.1)) := by simp

/-- Loading leaves the bindings of every unlisted key untouched, in both
maps. -/
theorem loadImpl_frame {es : List (CacheEntry K)} :
    ∀ (st : CacheState K) (k : K), (k ∉ es.map fun e => e.1) →
      mapLookup k (loadImpl es st).weakCache = mapLookup k st.weakCache ∧
      mapLookup k (loadImpl es st).lru = mapLookup k st.lru := by
  induction es with
  | nil => intro st k _; exact ⟨rfl, rfl⟩
  | cons e rest ih =>
    intro st k hk
    obtain ⟨k₀, v, s⟩ := e
    simp only [List.map_cons, List.mem_cons] at hk
    push_neg at hk
    have := ih ⟨mapSet k₀ (some v) st.weakCache, mapSet k₀ v st.lru⟩ k hk.2
    refine ⟨this.1.trans ?_, this.2.trans ?_⟩
    · simp [mapLookup_mapSet, hk.1]
    · simp [mapLookup_mapSet, hk.1]

/-- Loading entries whose keys are fresh for the weak map and mutually
distinct appends one weak binding per entry, in order, whatever the LRU
map holds. -/
theorem loadImpl_weakCache_fresh {es : List (CacheEntry K)} :
    ∀ (st : CacheState K),
      (es.map fun e => e.1).Nodup →
      (∀ e ∈ es, e.1 ∉ st.weakCache.map Prod.fst) →
      (loadImpl es st).weakCache
        = st.weakCache ++ es.map (fun e => (e.1, some e.2.1)) := by
  induction es with
  | nil => intro st _ _; simp [loadImpl]
  | cons e rest ih =>
    intro st hn hd
    obtain ⟨k, v, s⟩ := e
    simp only [List.map_cons, List.nodup_cons] at hn
    have hwc : mapSet k (some v) st.weakCache = st.weakCache ++ [(k, some v)] :=
      mapSet_eq_append (hd (k, v, s) (List.mem_cons_self _ _))
    have hd' : ∀ e ∈ rest, e.1 ∉ (st.weakCache ++ [(k, some v)]).map Prod.fst := by
      intro e he
      have hke : e.1 ≠ k := fun hk => hn.1 (List.mem_map.mpr ⟨e, he, hk⟩)
      have hde := hd e (List.mem_cons_of_mem _ he)
      simp only [List.map_append, List.mem_append]
      rintro (h | h)
      · exact hde h
      · simp at h; exact hke h
    have hrec := ih ⟨st.weakCache ++ [(k, some v)], mapSet k v st.lru⟩ hn.2 hd'
    calc (loadImpl ((k, v, s) :: rest) st).weakCache
        = (loadImpl rest ⟨mapSet k (some v) st.weakCache, mapSet k v st.lru⟩).weakCache := rfl
      _ = (loadImpl rest ⟨st.weakCache ++ [(k, some v)], mapSet k v st.lru⟩).weakCache := by
            rw [hwc]
      _ = st.weakCache ++ [(k, some v)] ++ rest.map (fun e => (e.1, some e.2.1)) := hrec
      _ = st.weakCache ++ ((k, v, s) :: rest).map (fun e => (e.1, some e.2.1)) := by
            simp

/-- The `clear` loop run on a weak map all of whose entries are live
derefs every entry successfully and empties the weak map (each step
deletes the key it just visited). -/
theorem clearLoop_self :
    ∀ (wc : List (K × Option JVal)), (∀ kc ∈ wc, ∃ v, kc.2 = some v) →
      ∀ (lru : List (K × JVal)),
        ∃ lru', clearLoop wc ⟨wc, lru⟩ = .ok (⟨[], lru'⟩ : CacheState K) := by
  intro wc
  induction wc with
  | nil => intro _ lru; exact ⟨lru, rfl⟩
  | cons kc rest ih =>
    intro h lru
    obtain ⟨k, c⟩ := kc
    obtain ⟨v, hv⟩ := h (k, c) (List.mem_cons_self _ _)
    simp only at hv
    subst hv
    obtain ⟨lru', hres⟩ :=
      ih (fun e he => h e (List.mem_cons_of_mem _ he)) (mapDelete k lru)
    refine ⟨lru', ?_⟩
    show clearLoop ((k, some v) :: rest) ⟨(k, some v) :: rest, lru⟩
      = .ok (⟨[], lru'⟩ : CacheState K)
    unfold clearLoop
    simpa [mapLookup, mapDelete] using hres

/-- The `beginLiveTransaction` loop over live entries succeeds and builds
the transactional map by appending, per visited key in order, the deref
result of that key against the cache's weak map. -/
theorem beginLoop_spec (st : CacheT K) :
    ∀ (wc : List (K × Option JVal)) (txc : List (K × JVal))
      (txr : List (K × List CachedEntityRevision)),
      (∀ kc ∈ wc, ∃ v, mapLookup kc.1 st.weakCache = some (some v)) →
      (wc.map Prod.fst).Nodup →
      (∀ kc ∈ wc, kc.1 ∉ txc.map Prod.fst) →
      ∃ t, beginLoop st wc txc txr = .ok t ∧
        t.transactionalCache
          = txc ++ wc.map fun kc =>
              (kc.1, ((mapLookup kc.1 st.weakCache).bind id).getD JVal.null) := by
  intro wc
  induction wc with
  | nil => intro txc txr _ _ _; exact ⟨_, rfl, by simp⟩
  | cons kc rest ih =>
    intro txc txr hlive hn hfresh
    obtain ⟨k, c⟩ := kc
    obtain ⟨v, hv⟩ := hlive (k, c) (List.mem_cons_self _ _)
    simp only [List.map_cons, List.nodup_cons] at hn
    have hset : mapSet k v txc = txc ++ [(k, v)] :=
      mapSet_eq_append (hfresh (k, c) (List.mem_cons_self _ _))
    have hfresh' : ∀ kc' ∈ rest, kc'.1 ∉ (txc ++ [(k, v)]).map Prod.fst := by
      intro kc' hkc'
      have hne : kc'.1 ≠ k := fun hh => hn.1 (List.mem_map.mpr ⟨kc', hkc', hh⟩)
      have hf := hfresh kc' (List.mem_cons_of_mem _ hkc')
      simp only [List.map_append, List.mem_append]
      rintro (h | h)
      · exact hf h
      · simp at h; exact hne h
    obtain ⟨t, hok, htc⟩ := ih (txc ++ [(k, v)])
      (((mapLookup k st.entryRevisions).getD []).foldl
        (fun acc r => mapSet k [r] acc) txr)
      (fun e he => hlive e (List.mem_cons_of_mem _ he)) hn.2 hfresh'
    refine ⟨t, ?_, ?_⟩
    · show beginLoop st ((k, c) :: rest) txc txr = .ok t
      unfold beginLoop
      rw [hv]
      simp only [Option.some_bind, id_eq]
      rw [hset]
      exact hok
    · rw [htc]
      simp [hv]

/-- Looking a key up after mapping `getD` over the cells of an all-live
weak map is dereferencing the key's cell. -/
theorem mapLookup_getD_map {wc : List (K × Option JVal)}
    (hl : ∀ kc ∈ wc, ∃ v, kc.2 = some v) (k : K) :
    mapLookup k (wc.map fun kc => (kc.1, kc.2.getD JVal.null))
      = (mapLookup k wc).bind id := by
  induction wc with
  | nil => rfl
  | cons kc rest ih =>
    obtain ⟨k0, c⟩ := kc
    obtain ⟨v, hv⟩ := hl (k0, c) (List.mem_cons_self _ _)
    simp only at hv
    subst hv
    by_cases hk : k = k0
    · subst hk; simp [mapLookup]
    · simp [mapLookup, hk, ih fun e he => hl e (List.mem_cons_of_mem _ he)]

end CacheLemmas

section SaveLemmas

/-- The shim succeeds exactly on the JSON round-trip of a live value. -/
theorem structuredCloneShim_ok_iff {ov : Option JVal} {c : JVal} :
    structuredCloneShim ov = .ok c ↔ ov.bind jsonSer = some c := by
  cases ov with
  | none => simp [structuredCloneShim]
  | some v => cases h : jsonSer v <;> simp [structuredCloneShim, h]

/-- The shim throws exactly when the cell has no JSON round-trip: the weak
entry has evaporated (`none`) or the value is a bare function. -/
theorem structuredCloneShim_error_iff {ov : Option JVal} :
    structuredCloneShim ov = .error notCloneableMsg ↔ ov.bind jsonSer = none := by
  cases ov with
  | none => simp [structuredCloneShim]
  | some v => cases h : jsonSer v <;> simp [structuredCloneShim, h]

/-- A successful `save` loop returns, per input tuple in order, the key,
the JSON round-trip of the entity slot, and the untouched state slot. -/
theorem saveList_ok_shape {K : Type} :
    ∀ {l : List (K × Option JVal × Option CacheEntryState)}
      {r : List (K × JVal × Option CacheEntryState)},
      saveList l = .ok r →
      r = l.map fun e => (e.1, (e.2.1.bind jsonSer).getD .null, e.2.2) := by
  intro l
  induction l with
  | nil => intro r h; simpa [saveList] using h.symm
  | cons e rest ih =>
    intro r h
    obtain ⟨k, ov, s⟩ := e
    unfold saveList at h
    cases hc : structuredCloneShim ov with
    | error msg => rw [hc] at h; cases h
    | ok c =>
      rw [hc] at h
      cases hr : saveList rest with
      | error msg => rw [hr] at h; cases h
      | ok l' =>
        rw [hr] at h
        cases h
        have hcv : ov.bind jsonSer = some c := structuredCloneShim_ok_iff.mp hc
        simp [ih hr, hcv]

/-- The shim's only error is `notCloneableMsg`. -/
theorem structuredCloneShim_error_msg {ov : Option JVal} {msg : String}
    (h : structuredCloneShim ov = .error msg) : msg = notCloneableMsg := by
  cases ov with
  | none => simpa [structuredCloneShim] using h.symm
  | some v =>
    cases hv : jsonSer v
    · rw [structuredCloneShim, hv] at h
      exact (Except.error.inj h).symm
    · rw [structuredCloneShim, hv] at h
      cases h

/-- The `save` loop fails — always with the shim's message — exactly when
some input tuple's entity slot has no JSON round-trip. -/
theorem saveList_error_iff {K : Type}
    {l : List (K × Option JVal × Option CacheEntryState)} :
    saveList l = .error notCloneableMsg ↔ ∃ e ∈ l, e.2.1.bind jsonSer = none := by
  induction l with
  | nil => simp [saveList]
  | cons e rest ih =>
    obtain ⟨k, ov, s⟩ := e
    constructor
    · intro h
      unfold saveList at h
      cases hc : structuredCloneShim ov with
      | error msg =>
        have hmsg := structuredCloneShim_error_msg hc
        subst hmsg
        exact ⟨(k, ov, s), List.mem_cons_self _ _,
          structuredCloneShim_error_iff.mp hc⟩
      | ok c =>
        rw [hc] at h
        cases hr : saveList rest with
        | error msg =>
          rw [hr] at h
          have hmsg := Except.error.inj h
          subst hmsg
          obtain ⟨e', he', hn⟩ := ih.mp hr
          exact ⟨e', List.mem_cons_of_mem _ he', hn⟩
        | ok l' => rw [hr] at h; cases h
    · rintro ⟨e', he', hn⟩
      rcases List.mem_cons.mp he' with heq | hmem
      · have : structuredCloneShim ov = .error notCloneableMsg :=
          structuredCloneShim_error_iff.mpr (by rw [heq] at hn; exact hn)
        unfold saveList
        rw [this]
      · have hrest : saveList rest = .error notCloneableMsg := ih.mpr ⟨e', hmem, hn⟩
        unfold saveList
        cases hc : structuredCloneShim ov with
        | error msg => rw [structuredCloneShim_error_msg hc]
        | ok c => rw [hrest]

/-- The `save` loop's only error is the shim's message. -/
theorem saveList_error_msg {K : Type}
    {l : List (K × Option JVal × Option CacheEntryState)} {msg : String}
    (h : saveList l = .error msg) : msg = notCloneableMsg := by
  induction l with
  | nil => cases h
  | cons e rest ih =>
    obtain ⟨k, ov, s⟩ := e
    unfold saveList at h
    cases hc : structuredCloneShim ov with
    | error m =>
      rw [hc] at h
      exact (Except.error.inj h).symm.trans (structuredCloneShim_error_msg hc)
    | ok c =>
      rw [hc] at h
      cases hr : saveList rest with
      | error m =>
        rw [hr] at h
        have hm : m = msg := Except.error.inj h
        subst hm
        exact ih hr
      | ok l' => rw [hr] at h; cases h

/-- On a weak map all of whose cells hold JSON-stable values, mapping each
cell through the JSON round-trip and collecting the reachable pairs agree. -/
theorem roundtrip_pairs_stable {K : Type} :
    ∀ {wc : List (K × Option JVal)},
      (∀ kc ∈ wc, ∃ v, kc.2 = some v ∧ jsonSer v = some v) →
      wc.map (fun kc => (kc.1, (kc.2.bind jsonSer).getD .null)) =
        wc.filterMap fun kc => kc.2.map fun v => (kc.1, v) := by
  intro wc
  induction wc with
  | nil => intro _; rfl
  | cons kc rest ih =>
    intro h
    obtain ⟨k, c⟩ := kc
    obtain ⟨v, hv, hs⟩ := h (k, c) (List.mem_cons_self _ _)
    simp only at hv
    subst hv
    simp only [List.map_cons, List.filterMap_cons, Option.map_some',
      Option.some_bind, hs, Option.getD_some]
    exact congrArg _ (ih fun e he => h e (List.mem_cons_of_mem _ he))

end SaveLemmas

/-- The keys of `rangeEntries n` are `0, …, n-1`. -/
theorem rangeEntries_keys (n : Nat) :
    ((rangeEntries n).map fun e => e.1) = List.range n := by
  rw [rangeEntries, List.map_map]
  exact (List.map_congr_left fun a _ => rfl).trans (List.map_id _)

/-- The list `rangeEntries n` has `n` entries. -/
theorem rangeEntries_length (n : Nat) : (rangeEntries n).length = n := by
  rw [rangeEntries, List.length_map, List.length_range]

/-- Claim C2 (code bug witnessed): the spec bounds the LRU tier by the
configured capacity (default 10000), but `#lru` in the source is a plain
unbounded `Map` — the code itself says `// TODO: impl lru correctly` and
`buildCache` accepts no options — so a bulk `load` of 10001 entries with
distinct keys leaves 10001 entries in the LRU tier. -/
theorem lru_unbounded_after_overflow_load :
    10000 < ((loadImpl (rangeEntries 10001) (emptyCache Nat)).lru).length := by
  have hn : ((rangeEntries 10001).map fun e => e.1).Nodup := by
    rw [rangeEntries_keys]
    exact List.nodup_range 10001
  have hfresh : ∀ e ∈ rangeEntries 10001,
      e.1 ∉ (emptyCache Nat).weakCache.map Prod.fst ∧
      e.1 ∉ (emptyCache Nat).lru.map Prod.fst := by
    intro e _
    exact ⟨by simp [emptyCache], by simp [emptyCache]⟩
  rw [(loadImpl_fresh _ hn hfresh).2]
  simp only [emptyCache, List.nil_append, List.length_map, rangeEntries_length]
  omega

/-- Claim C3 (code bug witnessed): the spec has `load` deep-clone each
value before installing it, but the source stores the caller's object
itself (`let clone = value;` — the `structuredClone(value)` call on
cache.ts line 110 is commented out).  Concretely: load the object at
address 0 whose contents are `1` under key `"k"`, then mutate that object
in place to `2`; `get("k")` now returns `2`, not the `1` the claim
promises. -/
theorem load_aliases_caller_value :
    refGet (fun _ => JVal.num 1)
        (refLoad [(("k" : String), 0)] ⟨[], []⟩) "k" = some (JVal.num 1) ∧
    refGet (heapWrite (fun _ => JVal.num 1) 0 (JVal.num 2))
        (refLoad [(("k" : String), 0)] ⟨[], []⟩) "k" = some (JVal.num 2) ∧
    JVal.num 2 ≠ JVal.num 1 := by
  refine ⟨rfl, rfl, ?_⟩
  intro h
  simp at h

/-- Claim C8 (code bug witnessed): the spec's LRU `set` on a present key
removes-then-reinserts so the key ends at the tail of insertion order, but
the source runs `this.#lru.set(key, value)` on a plain JavaScript `Map`
(`// TODO: impl lru correctly`), which updates in place and keeps the
key's original position.  After loading `a`, `b`, then `a` again, LRU
iteration order is `[a, b]` — the claim requires `[b, a]` — though the
value under `a` was updated. -/
theorem lru_reinsert_keeps_position :
    ((loadImpl [("a", JVal.num 3, none)]
        (loadImpl [("b", JVal.num 2, none)]
          (loadImpl [("a", JVal.num 1, none)]
            (emptyCache String)))).lru).map Prod.fst = ["a", "b"] ∧
    mapLookup "a"
        (loadImpl [("a", JVal.num 3, none)]
          (loadImpl [("b", JVal.num 2, none)]
            (loadImpl [("a", JVal.num 1, none)]
              (emptyCache String)))).lru = some (JVal.num 3) :=
  ⟨rfl, rfl⟩

/-- Claim C6 (confirmed): `Cache.get(key)` resolves the primary store's
weak reference — it returns `some v` exactly when the key is bound and the
referent is still alive with contents `v`, and `none` exactly when the key
is absent or the referent has been reclaimed.  The embedding is a total
function into `Option`, matching the source (`ref?.deref()`), which has no
throwing construct. -/
theorem get_weak_resolve_characterization {K : Type} [DecidableEq K]
    (st : CacheState K) (k : K) (v : JVal) :
    (getImpl st k = some v ↔ mapLookup k st.weakCache = some (some v)) ∧
    (getImpl st k = none ↔
      (mapLookup k st.weakCache = none ∨ mapLookup k st.weakCache = some none)) := by
  unfold getImpl
  cases h : mapLookup k st.weakCache with
  | none => simp
  | some c => cases c <;> simp

/-- Claim C9 (confirmed): `load` only writes the listed keys — for any key
not occurring in the entry list, its binding in the primary store (hence
the result of `get`) and in the LRU tier are unchanged; `load` never
clears. -/
theorem load_frame_other_keys {K : Type} [DecidableEq K]
    (es : List (CacheEntry K)) (st : CacheState K) (k : K)
    (h : k ∉ es.map fun e => e.1) :
    getImpl (loadImpl es st) k = getImpl st k ∧
    mapLookup k (loadImpl es st).weakCache = mapLookup k st.weakCache ∧
    mapLookup k (loadImpl es st).lru = mapLookup k st.lru := by
  obtain ⟨h1, h2⟩ := loadImpl_frame st k h
  exact ⟨by unfold getImpl; rw [h1], h1, h2⟩

/-- Witness for C9 at a concrete input: loading key `"k"` leaves the
pre-existing binding of `"x"` intact. -/
theorem load_frame_other_keys_case :
    getImpl (loadImpl [(("k" : String), JVal.num 2, none)]
        ⟨[("x", some (JVal.num 7))], [("x", JVal.num 7)]⟩) "x"
      = some (JVal.num 7) := by
  have h := (load_frame_other_keys [(("k" : String), JVal.num 2, none)]
    ⟨[("x", some (JVal.num 7))], [("x", JVal.num 7)]⟩ "x" (by decide)).1
  rw [h]
  rfl

/-- Claim C10 (confirmed): the state slot of every tuple yielded by cache
iteration is the hard-coded `undefined` (`// TODO read CacheEntryState
correctly`, cache.ts line 127), and hence so is the state slot of every
tuple in a successful `save` result: the cache records no `CacheEntryState`
for any key. -/
theorem iteration_and_save_state_undefined {K : Type} [DecidableEq K]
    (st : CacheState K) :
    (∀ t ∈ entriesList st, t.2.2 = (none : Option CacheEntryState)) ∧
    (∀ l, saveImpl st = .ok l →
      ∀ t ∈ l, t.2.2 = (none : Option CacheEntryState)) := by
  constructor
  · intro t ht
    simp only [entriesList, List.mem_map] at ht
    obtain ⟨kc, _, rfl⟩ := ht
    rfl
  · intro l hl t ht
    unfold saveImpl at hl
    rw [saveList_ok_shape hl] at ht
    simp only [List.mem_map] at ht
    obtain ⟨e, he, rfl⟩ := ht
    simp only [entriesList, List.mem_map] at he
    obtain ⟨kc, _, rfl⟩ := he
    rfl

/-- Claim C1 (confirmed): a read inside a live transaction begun on a
cache whose entries are all live (the only kind `beginLiveTransaction` can
produce: its `entries()` snapshot loop throws on an evaporated entry)
returns the value the primary store held at `begin`, however many commits
by other transactions land on the primary store in between.
`LiveCacheTransactionImpl.get` reads only the private `#transactionalCache`
map populated at begin (go.test.ts lines 403-444), and
`CacheImpl.commitTransaction` mutates only the cache's own fields
(go.test.ts lines 214-248), so the transactional view is a snapshot. -/
theorem tx_read_snapshot_isolated {K : Type} [DecidableEq K]
    (st0 : CacheT K)
    (hn : (st0.weakCache.map Prod.fst).Nodup)
    (hlive : ∀ kc ∈ st0.weakCache, ∃ v, kc.2 = some v) :
    ∃ t, beginLiveTransactionImpl st0 = .ok t ∧
      ∀ (ops : List (List (CacheEntry K) × List (K × List CachedEntityRevision)))
        (k : K) (now : Int),
        sessionRead now
            (ops.foldl (fun s op => sessionCommitOther op.1 op.2 s) ⟨st0, t⟩) k
          = getTImpl st0 k := by
  have hlive' : ∀ kc ∈ st0.weakCache, ∃ v,
      mapLookup kc.1 st0.weakCache = some (some v) := by
    intro kc hkc
    obtain ⟨v, hv⟩ := hlive kc hkc
    refine ⟨v, ?_⟩
    rw [mapLookup_of_mem_nodup hn hkc, hv]
  obtain ⟨t, hok, htc⟩ :=
    beginLoop_spec st0 st0.weakCache [] [] hlive' hn (fun kc _ => by simp)
  refine ⟨t, hok, ?_⟩
  intro ops k now
  have htx : ∀ (s : SessionT K),
      (ops.foldl (fun s op => sessionCommitOther op.1 op.2 s) s).tx = s.tx := by
    induction ops with
    | nil => intro s; rfl
    | cons op rest ih =>
      intro s
      rw [List.foldl_cons]
      exact ih (sessionCommitOther op.1 op.2 s)
  unfold sessionRead
  rw [htx]
  have htc' : t.transactionalCache
      = st0.weakCache.map fun kc => (kc.1, kc.2.getD JVal.null) := by
    rw [htc, List.nil_append]
    refine List.map_congr_left fun kc hkc => ?_
    rw [mapLookup_of_mem_nodup hn hkc]
    simp
  have hlook : mapLookup k t.transactionalCache
      = (mapLookup k st0.weakCache).bind id := by
    rw [htc']
    exact mapLookup_getD_map hlive k
  show (txGetImpl now t k).1 = getTImpl st0 k
  unfold txGetImpl getTImpl
  rw [hlook]
  cases (mapLookup k st0.weakCache).bind id with
  | none => rfl
  | some v => rfl

/-- Witness for C1 at a concrete input: the store holds `1` under `"k"`, a
transaction begins, another transaction commits `2` for `"k"`; the
transactional read still sees `1` while a direct `get` against the
committed-to cache sees `2`. -/
theorem tx_read_snapshot_isolated_case :
    ∃ t, beginLiveTransactionImpl
        (⟨[("k", some (JVal.num 1))], [("k", JVal.num 1)], [], [], 10000, 60000⟩ :
          CacheT String) = .ok t ∧
      sessionRead 0
          ([([(("k" : String), JVal.num 2, (none : Option CacheEntryState))], [])].foldl
            (fun s op => sessionCommitOther op.1 op.2 s)
            ⟨⟨[("k", some (JVal.num 1))], [("k", JVal.num 1)], [], [], 10000, 60000⟩, t⟩)
          "k"
        = some (JVal.num 1) ∧
      getTImpl (commitTransactionImpl [(("k" : String), JVal.num 2, none)] []
          (⟨[("k", some (JVal.num 1))], [("k", JVal.num 1)], [], [], 10000, 60000⟩ :
            CacheT String)) "k"
        = some (JVal.num 2) := by
  have hl : ∀ kc ∈ ([("k", some (JVal.num 1))] : List (String × Option JVal)),
      ∃ v, kc.2 = some v := by
    intro kc hkc
    rcases List.mem_cons.mp hkc with heq | hmem
    · exact ⟨JVal.num 1, by rw [heq]⟩
    · cases hmem
  obtain ⟨t, hok, hread⟩ := tx_read_snapshot_isolated
    (⟨[("k", some (JVal.num 1))], [("k", JVal.num 1)], [], [], 10000, 60000⟩ :
      CacheT String)
    (by decide) hl
  exact ⟨t, hok,
    (hread [([("k", JVal.num 2, none)], [])] "k" 0).trans rfl, rfl⟩

/-- Claim C7 (refuted as stated): the source iterator
(cache.ts lines 123-130) does not skip a key whose weak reference no
longer resolves — it yields the tuple with an `undefined` entity.  On a
store whose single entry has evaporated, iteration yields that tuple
rather than nothing.  (No such store can currently arise through the
public API: the stub `#lru` strongly retains every loaded value.) -/
theorem iteration_yields_evaporated_entry :
    entriesList (⟨[("k", (none : Option JVal))], []⟩ : CacheState String)
        = [("k", none, none)] ∧
    ¬ (∀ t ∈ entriesList (⟨[("k", (none : Option JVal))], []⟩ : CacheState String),
        (t.2.1).isSome = true) := by
  refine ⟨rfl, ?_⟩
  intro h
  have := h ("k", none, none) (List.mem_cons_self _ _)
  simp at this

/-- Claim C7 (amended): iteration yields exactly one tuple per key of the
primary store map, in insertion order, whose entity slot is the key's
current deref result — `undefined` when the weak entry has evaporated, not
skipped — and whose state slot is `undefined`. -/
theorem iteration_yields_every_key {K : Type} [DecidableEq K]
    (st : CacheState K) (hn : (st.weakCache.map Prod.fst).Nodup) :
    entriesList st = st.weakCache.map fun kc =>
      (kc.1, kc.2, (none : Option CacheEntryState)) :=
  entriesList_eq_map hn

/-- Witness for the amended C7 at a concrete input: one live and one
evaporated entry; both are yielded, the latter with `undefined` entity. -/
theorem iteration_yields_every_key_case :
    entriesList (⟨[("k", some JVal.null), ("j", (none : Option JVal))], []⟩ :
        CacheState String)
      = [("k", some JVal.null, none), ("j", none, none)] := by
  rw [iteration_yields_every_key
    (⟨[("k", some JVal.null), ("j", none)], []⟩ : CacheState String) (by decide)]
  rfl

/-- Claim C4 (refuted as stated): `save`'s clone is not always
structurally equal to the stored entity, because the shim is a JSON round
trip.  Store `{f: function}` under `"k"`: `save` succeeds — the claim's
"fails iff some value cannot be deeply copied" notwithstanding — and
returns `{}`, which is not structurally equal to the stored value. -/
theorem save_clone_drops_function_field :
    saveImpl (⟨[("k", some (JVal.obj [("f", JVal.func)]))],
        [("k", JVal.obj [("f", JVal.func)])]⟩ : CacheState String)
      = .ok [("k", JVal.obj [], none)] ∧
    JVal.obj [] ≠ JVal.obj [("f", JVal.func)] := by
  refine ⟨rfl, ?_⟩
  intro h
  simp at h

/-- Claim C4 (amended): on a store without duplicate keys, `save` emits
one tuple per entry of the primary store map — key, the JSON round-trip of
the entry's deref result, and the `undefined` state — and it fails, with
the `NotStructuredCloneable` message, exactly when some entry's cell has
no JSON round-trip: the weak entry has evaporated or its value is a bare
function. -/
theorem save_json_roundtrip_characterization {K : Type} [DecidableEq K]
    (st : CacheState K) (hn : (st.weakCache.map Prod.fst).Nodup) :
    (∀ l, saveImpl st = .ok l →
      l = st.weakCache.map fun kc =>
        (kc.1, (kc.2.bind jsonSer).getD .null, (none : Option CacheEntryState))) ∧
    (saveImpl st = .error notCloneableMsg ↔
      ∃ kc ∈ st.weakCache, kc.2.bind jsonSer = none) := by
  have hE := entriesList_eq_map hn
  constructor
  · intro l hl
    unfold saveImpl at hl
    rw [hE] at hl
    rw [saveList_ok_shape hl, List.map_map]
    rfl
  · unfold saveImpl
    rw [hE, saveList_error_iff]
    constructor
    · rintro ⟨e, he, hnone⟩
      simp only [List.mem_map] at he
      obtain ⟨kc, hkc, rfl⟩ := he
      exact ⟨kc, hkc, hnone⟩
    · rintro ⟨kc, hkc, hnone⟩
      exact ⟨(kc.1, kc.2, none), List.mem_map.mpr ⟨kc, hkc, rfl⟩, hnone⟩

/-- Witness for the amended C4 at concrete inputs: a live JSON-stable
entry saves to itself; an evaporated entry makes `save` throw the
`NotStructuredCloneable` message. -/
theorem save_json_roundtrip_characterization_case :
    ([(("a" : String), JVal.num 1, (none : Option CacheEntryState))]
        = (⟨[("a", some (JVal.num 1))], [("a", JVal.num 1)]⟩ : CacheState String).weakCache.map
            fun kc => (kc.1, (kc.2.bind jsonSer).getD .null, (none : Option CacheEntryState))) ∧
    saveImpl (⟨[("b", (none : Option JVal))], []⟩ : CacheState String)
        = .error notCloneableMsg := by
  constructor
  · exact (save_json_roundtrip_characterization
      (⟨[("a", some (JVal.num 1))], [("a", JVal.num 1)]⟩ : CacheState String)
      (by decide)).1 [("a", JVal.num 1, none)] rfl
  · exact (save_json_roundtrip_characterization
      (⟨[("b", (none : Option JVal))], []⟩ : CacheState String) (by decide)).2.mpr
      ⟨("b", none), List.mem_cons_self _ _, rfl⟩

/-- Re-loading the tuples of a successful `save` into an empty cache makes
every saved pair reachable. -/
theorem saved_pairs_reload {K : Type} :
    ∀ wc : List (K × Option JVal),
      ((wc.map fun kc => (kc.1, (kc.2.bind jsonSer).getD JVal.null,
          (none : Option CacheEntryState))).map fun e =>
            (e.1, some e.2.1)).filterMap
          (fun kc => kc.2.map fun v => (kc.1, v))
        = wc.map fun kc => (kc.1, (kc.2.bind jsonSer).getD JVal.null) := by
  intro wc
  induction wc with
  | nil => rfl
  | cons kc rest ih =>
    simp only [List.map_cons, List.filterMap_cons, Option.map_some']
    exact congrArg _ ih

/-- Claim C5 (refuted as stated): on a store every entry of which the
code's own `save` accepts (it throws on none of them) and whose entries
are all live (so `clear` succeeds), the round trip `clear(); load(save())`
can still change the reachable pairs, because the JSON-shim clone silently
drops a function-valued field.  Store `{f: function}` under `"k"`: `save`
succeeds with `{}`, `clear` empties both maps, and after re-load the
reachable pair for `"k"` is `{}`, not the original. -/
theorem save_load_roundtrip_changes_pairs :
    saveImpl (⟨[("k", some (JVal.obj [("f", JVal.func)]))],
        [("k", JVal.obj [("f", JVal.func)])]⟩ : CacheState String)
      = .ok [("k", JVal.obj [], none)] ∧
    clearImpl (⟨[("k", some (JVal.obj [("f", JVal.func)]))],
        [("k", JVal.obj [("f", JVal.func)])]⟩ : CacheState String)
      = .ok (⟨[], []⟩ : CacheState String) ∧
    reachablePairs (loadImpl [(("k" : String), JVal.obj [], none)]
        (⟨[], []⟩ : CacheState String))
      = [("k", JVal.obj [])] ∧
    reachablePairs (⟨[("k", some (JVal.obj [("f", JVal.func)]))],
        [("k", JVal.obj [("f", JVal.func)])]⟩ : CacheState String)
      = [("k", JVal.obj [("f", JVal.func)])] ∧
    JVal.obj [] ≠ JVal.obj [("f", JVal.func)] := by
  refine ⟨rfl, rfl, rfl, rfl, ?_⟩
  intro h
  simp at h

/-- Claim C5 (amended): on a store without duplicate keys all of whose
entries are live and JSON-stable (the JSON round-trip returns the value
unchanged — no function-valued or otherwise dropped fields), capturing
`s = save()`, then `clear()` (go.test.ts lines 136-142, which succeeds
because every entry derefs), then `load(s)` leaves the reachable
`(key, value)` pairs unchanged. -/
theorem save_load_roundtrip_json_stable {K : Type} [DecidableEq K]
    (st : CacheState K) (hn : (st.weakCache.map Prod.fst).Nodup)
    (hstable : ∀ kc ∈ st.weakCache, ∃ v, kc.2 = some v ∧ jsonSer v = some v) :
    ∃ s st', saveImpl st = .ok s ∧ clearImpl st = .ok st' ∧
      reachablePairs (loadImpl s st') = reachablePairs st := by
  obtain ⟨lru', hclear⟩ := clearLoop_self st.weakCache
    (fun kc hkc => (hstable kc hkc).imp fun v hv => hv.1) st.lru
  cases hs : saveImpl st with
  | error msg =>
    exfalso
    unfold saveImpl at hs
    have hmsg := saveList_error_msg hs
    subst hmsg
    obtain ⟨e, he, hnone⟩ := saveList_error_iff.mp hs
    rw [entriesList_eq_map hn] at he
    simp only [List.mem_map] at he
    obtain ⟨kc, hkc, rfl⟩ := he
    obtain ⟨v, hv, hsv⟩ := hstable kc hkc
    simp only [hv, Option.some_bind, hsv] at hnone
    cases hnone
  | ok s =>
    refine ⟨s, ⟨[], lru'⟩, rfl, hclear, ?_⟩
    unfold saveImpl at hs
    have hshape := saveList_ok_shape hs
    rw [entriesList_eq_map hn, List.map_map] at hshape
    have hs' : s = st.weakCache.map fun kc =>
        (kc.1, (kc.2.bind jsonSer).getD JVal.null, (none : Option CacheEntryState)) :=
      hshape.trans (List.map_congr_left fun _ _ => rfl)
    subst hs'
    have hkeys : ((st.weakCache.map fun kc =>
        (kc.1, (kc.2.bind jsonSer).getD JVal.null,
          (none : Option CacheEntryState))).map fun e => e.1)
        = st.weakCache.map Prod.fst := by
      rw [List.map_map]
      exact List.map_congr_left fun _ _ => rfl
    have hfresh : ∀ e ∈ st.weakCache.map fun kc =>
        (kc.1, (kc.2.bind jsonSer).getD JVal.null, (none : Option CacheEntryState)),
        e.1 ∉ (⟨[], lru'⟩ : CacheState K).weakCache.map Prod.fst :=
      fun e _ => by simp
    have hload := loadImpl_weakCache_fresh (⟨[], lru'⟩ : CacheState K)
      (by rw [hkeys]; exact hn) hfresh
    have hnil : (⟨[], lru'⟩ : CacheState K).weakCache = [] := rfl
    unfold reachablePairs
    rw [hload, hnil, List.nil_append, saved_pairs_reload,
      roundtrip_pairs_stable hstable]

/-- Witness for the amended C5 at a concrete input: a one-entry store with
a live, JSON-stable value clears successfully and round-trips to the same
reachable pair. -/
theorem save_load_roundtrip_json_stable_case :
    ∃ s st', saveImpl (⟨[("k", some (JVal.num 5))], [("k", JVal.num 5)]⟩ :
          CacheState String) = .ok s ∧
      clearImpl (⟨[("k", some (JVal.num 5))], [("k", JVal.num 5)]⟩ :
          CacheState String) = .ok st' ∧
      reachablePairs (loadImpl s st')
        = reachablePairs (⟨[("k", some (JVal.num 5))], [("k", JVal.num 5)]⟩ :
            CacheState String) := by
  refine save_load_roundtrip_json_stable
    (⟨[("k", some (JVal.num 5))], [("k", JVal.num 5)]⟩ : CacheState String)
    (by decide) ?_
  intro kc hkc
  rcases List.mem_cons.mp hkc with heq | hmem
  · exact ⟨JVal.num 5, by rw [heq], rfl⟩
  · cases hmem

/-- Witness for C10 at a concrete input: a store with one live entry. -/
theorem iteration_and_save_state_undefined_case :
    ((("k" : String), some JVal.null, (none : Option CacheEntryState)) ∈
        entriesList (⟨[("k", some JVal.null)], [("k", JVal.null)]⟩ : CacheState String)) ∧
    ((("k" : String), some JVal.null,
        (none : Option CacheEntryState)).2.2 = (none : Option CacheEntryState)) ∧
    ((("k" : String), JVal.null, (none : Option CacheEntryState)).2.2
        = (none : Option CacheEntryState)) := by
  refine ⟨List.mem_cons_self _ _, ?_, ?_⟩
  · exact (iteration_and_save_state_undefined
      (⟨[("k", some JVal.null)], [("k", JVal.null)]⟩ : CacheState String)).1
      _ (List.mem_cons_self _ _)
  · exact (iteration_and_save_state_undefined
      (⟨[("k", some JVal.null)], [("k", JVal.null)]⟩ : CacheState String)).2
      [("k", JVal.null, none)] rfl _ (List.mem_cons_self _ _)

end DataEden
